import Mathlib

/-!
Shallow embedding of the ssdeep fuzzy-hash digest core (ssdeep.go) and a
verification of its specification claims.

Go `uint32` arithmetic is modelled as `Nat` arithmetic reduced modulo
`2 ^ 32` (`u32`); every accumulator field is kept below `u32` by reducing
after each operation, and `x - y` on `uint32` becomes `(x + u32 - y) % u32`.
Go `int64` sizes and block sizes are nonnegative at every reachable point of
the library (`FuzzyBytes` passes a slice length, the doubling loop starts at
3), so they are modelled as `Nat`.

The two `while` loops of the source (`getBlockSize`'s doubling loop and
`FuzzyReader`'s shrink-and-rescan loop) are modelled with an explicit fuel
argument so that the definitions stay structurally recursive and kernel
evaluable; the fuel given at each call site is proved sufficient (the
doubling loop runs at most `log2` of the file size times, the shrink loop
halves the block size on every iteration), so the exhaustion branch is
unreachable there.
-/

namespace Ssdeep

set_option maxRecDepth 40000

/-- Modulus of Go `uint32` arithmetic: `2 ^ 32`. -/
def u32 : Nat := 4294967296

/-- Constant `rollingWindow uint32 = 7`. -/
def rollingWindow : Nat := 7

/-- Constant `blockMin int64 = 3`. -/
def blockMin : Nat := 3

/-- Constant `spamSumLength = 64`. -/
def spamSumLength : Nat := 64

/-- Constant `minFileSize = 4096`. -/
def minFileSize : Nat := 4096

/-- Constant `hashPrime uint32 = 0x01000193`. -/
def hashPrime : Nat := 0x01000193

/-- Constant `hashInit uint32 = 0x28021967`. -/
def hashInit : Nat := 0x28021967

/-- Constant `b64String`. -/
def b64String : String :=
  "ABCDEFGHIJKLMNOPQRSTUVWXYZabcdefghijklmnopqrstuvwxyz0123456789+/"

/-- Variable `b64 = []byte(b64String)`, as the list of its characters. -/
def b64 : List Char := b64String.toList

/-- Errors surfaced by the digest computation.  `ErrSmallInput` and
`ErrSmallBlock` are the two error values declared by the source; `ioError`
stands for an arbitrary failure a byte source could report. -/
inductive FuzzyError where
  | smallInput : FuzzyError
  | smallBlock : FuzzyError
  | ioError (msg : String) : FuzzyError
deriving Repr, DecidableEq

/-- Struct `rollingState`: the 7-byte circular window, the three Adler-like
accumulators and the write cursor. -/
structure rollingState where
  window : List Nat
  h1 : Nat
  h2 : Nat
  h3 : Nat
  n : Nat
deriving Repr, DecidableEq

/-- Method `rollSum`: `h1 + h2 + h3` in `uint32` arithmetic. -/
def rollingState.rollSum (rs : rollingState) : Nat :=
  (rs.h1 + rs.h2 + rs.h3) % u32

/-- Struct `ssdeepState`. -/
structure ssdeepState where
  rollingState : rollingState
  blockSize : Nat
  hashString1 : List Char
  hashString2 : List Char
  blockHash1 : Nat
  blockHash2 : Nat
deriving Repr, DecidableEq

/-- A fresh rolling state: `window` of 7 zero bytes, all accumulators and the
cursor zero (`rollingState{}` with `window: make([]byte, rollingWindow)`). -/
def freshRollingState : rollingState :=
  { window := List.replicate rollingWindow 0, h1 := 0, h2 := 0, h3 := 0, n := 0 }

/-- Function `newSsdeepState`: both block hashes seeded with `hashInit`,
everything else zero or empty. -/
def newSsdeepState : ssdeepState :=
  { rollingState := freshRollingState
    blockSize := 0
    hashString1 := []
    hashString2 := []
    blockHash1 := hashInit
    blockHash2 := hashInit }

/-- Function `sumHash`: `(h * hashPrime) ^ uint32(c)` in `uint32` arithmetic. -/
def sumHash (c : Nat) (h : Nat) : Nat :=
  ((h * hashPrime) % u32) ^^^ c

/-- Method `rollHash` of the source, as a pure function on `rollingState`.
Go `uint32` subtraction `x - y` is `(x + u32 - y) % u32` (the fields are kept
below `u32`), `h3 << 5` is `h3 * 32` before reduction. -/
def rollHash (rs : rollingState) (c : Nat) : rollingState :=
  let h2a := (rs.h2 + u32 - rs.h1) % u32
  let h2b := (h2a + rollingWindow * c) % u32
  let h1a := (rs.h1 + c) % u32
  let h1b := (h1a + u32 - rs.window.getD rs.n 0) % u32
  let window := rs.window.set rs.n c
  let n1 := rs.n + 1
  let n2 := if n1 = rollingWindow then 0 else n1
  let h3a := ((rs.h3 * 32) % u32) ^^^ c
  { window := window, h1 := h1b, h2 := h2b, h3 := h3a, n := n2 }

/-- Method `processByte`: absorb one byte into both block hashes, roll the
window, and on a coarse (and possibly fine) trigger harvest a character. -/
def processByte (state : ssdeepState) (b : Nat) : ssdeepState :=
  let st :=
    { state with
      blockHash1 := sumHash b state.blockHash1
      blockHash2 := sumHash b state.blockHash2
      rollingState := rollHash state.rollingState b }
  let rh := st.rollingState.rollSum
  if rh % st.blockSize = st.blockSize - 1 then
    let st1 :=
      if st.hashString1.length < spamSumLength - 1 then
        { st with
          hashString1 := st.hashString1 ++ [b64.getD (st.blockHash1 % 64) 'A']
          blockHash1 := hashInit }
      else st
    if rh % (st1.blockSize * 2) = st1.blockSize * 2 - 1 then
      if st1.hashString2.length < spamSumLength / 2 - 1 then
        { st1 with
          hashString2 := st1.hashString2 ++ [b64.getD (st1.blockHash2 % 64) 'A']
          blockHash2 := hashInit }
      else st1
    else st1
  else st

/-- A byte source: the collaborator behind the `Reader` interface.  Reading
yields the bytes of `bytes` in order and then fails: with a normal
end-of-data when `readErr = none`, or with the I/O error `readErr = some e`.
Seeking to offset 0 restarts the same sequence. -/
structure ByteSource where
  bytes : List Nat
  readErr : Option String
deriving Repr, DecidableEq

/-- Method `process`: reset the rolling state, then read and process bytes
until the first read failure.  The source's terminating failure (end-of-data
or I/O error alike) only stops the loop (`for err == nil`); it is dropped,
so exactly `src.bytes` is processed whatever `src.readErr` is. -/
def process (state : ssdeepState) (src : ByteSource) : ssdeepState :=
  src.bytes.foldl processByte { state with rollingState := freshRollingState }

/-- Loop body of `getBlockSize`: double `blockSize` while
`blockSize * spamSumLength < n`.  The extra fuel argument keeps the
recursion structural; `getBlockSize` passes fuel `n`, which is proved
sufficient (`getBlockSizeLoop_spec`). -/
def getBlockSizeLoop : Nat → Nat → Nat → Nat
  | 0, _, blockSize => blockSize
  | fuel + 1, n, blockSize =>
    if blockSize * spamSumLength < n then getBlockSizeLoop fuel n (blockSize * 2)
    else blockSize

/-- Method `getBlockSize`: the block size for a file of `n` bytes, starting
from `blockMin` and doubling while `blockSize * spamSumLength < n`. -/
def getBlockSize (n : Nat) : Nat :=
  getBlockSizeLoop n n blockMin

/-- Output formatting of `FuzzyReader`:
`fmt.Sprintf("%d:%s:%s", blockSize, hashString1, hashString2)`. -/
def formatDigest (blockSize : Nat) (s1 s2 : List Char) : String :=
  toString blockSize ++ ":" ++ String.mk s1 ++ ":" ++ String.mk s2

/-- The `for` loop of `FuzzyReader`: run one pass over the source; fail if
the block size has fallen below `blockMin`; rescan with a halved block size
and cleared strings while the coarse string is shorter than
`spamSumLength / 2`; otherwise finalize (append one character per block hash
when the final rolling sum is nonzero) and return the state.  The fuel keeps
the recursion structural; the exhaustion value is never reached at the fuel
`FuzzyReader` passes, since every iteration halves `blockSize`. -/
def fuzzyLoop : Nat → ByteSource → ssdeepState → Except FuzzyError ssdeepState
  | 0, _, _ => .error .smallBlock
  | fuel + 1, src, state =>
    let st := process state src
    if st.blockSize < blockMin then .error .smallBlock
    else if st.hashString1.length < spamSumLength / 2 then
      fuzzyLoop fuel src
        { st with
          blockSize := st.blockSize / 2
          blockHash1 := hashInit
          blockHash2 := hashInit
          hashString1 := []
          hashString2 := [] }
    else
      let rh := st.rollingState.rollSum
      .ok
        (if rh ≠ 0 then
          { st with
            hashString1 := st.hashString1 ++ [b64.getD (st.blockHash1 % 64) 'A']
            hashString2 := st.hashString2 ++ [b64.getD (st.blockHash2 % 64) 'A'] }
        else st)

/-- Function `FuzzyReader`: guard the declared size, select the initial block
size, run the shrink-and-rescan loop, format the digest. -/
def FuzzyReader (src : ByteSource) (size : Nat) : Except FuzzyError String :=
  if size < minFileSize then .error .smallInput
  else
    match fuzzyLoop (getBlockSize size + 1) src
        { newSsdeepState with blockSize := getBlockSize size } with
    | .error e => .error e
    | .ok st => .ok (formatDigest st.blockSize st.hashString1 st.hashString2)

/-- Function `FuzzyBytes`: wrap the buffer as a source that yields exactly its
bytes and then reports a clean end-of-data, and declare its length. -/
def FuzzyBytes (buffer : List Nat) : Except FuzzyError String :=
  FuzzyReader { bytes := buffer, readErr := none } buffer.length

/-- The block sizes with which the successive scanning passes of `fuzzyLoop`
are executed, in order (the pass of each iteration runs with the block size
the iteration was entered with; `process` does not change it). -/
def fuzzyLoopSizes : Nat → ByteSource → ssdeepState → List Nat
  | 0, _, _ => []
  | fuel + 1, src, state =>
    let st := process state src
    if st.blockSize < blockMin then [state.blockSize]
    else if st.hashString1.length < spamSumLength / 2 then
      state.blockSize ::
        fuzzyLoopSizes fuel src
          { st with
            blockSize := st.blockSize / 2
            blockHash1 := hashInit
            blockHash2 := hashInit
            hashString1 := []
            hashString2 := [] }
    else [state.blockSize]

/-- The block sizes of the successive scanning passes of a whole
`FuzzyReader` call (empty when the size guard fails and no pass runs). -/
def fuzzyPassSizes (src : ByteSource) (size : Nat) : List Nat :=
  if size < minFileSize then []
  else
    fuzzyLoopSizes (getBlockSize size + 1) src
      { newSsdeepState with blockSize := getBlockSize size }

/-- Bytes found by search whose single pass at block size 96 triggers the
coarse boundary often enough for `FuzzyReader` with declared size 4096 to
accept the very first pass; used to witness the success path concretely. -/
def witnessBytes : List Nat :=
  [19, 42, 15, 35, 66, 91, 47, 85, 60, 138, 37, 181, 23, 57, 249, 48, 99, 42,
   205, 188, 55, 4, 141, 190, 25, 30, 91, 90, 223, 36, 23, 38, 31, 94, 87, 58,
   69, 44, 31, 92, 91, 76]

/-- The source yielding `witnessBytes` and then a clean end-of-data. -/
def witnessSource : ByteSource := { bytes := witnessBytes, readErr := none }

/-- The digest `FuzzyReader witnessSource 4096` computes. -/
def witnessDigest : String :=
  "96:oqGn+KwZv1yckYESob87+/qyD67yfgJ65Wn:bN9ycknbq+BDQMgJ65Wn"

/-- The string invariant `fuzzyLoop` maintains while scanning: both hash
strings are below their caps (63 and 31), drawn from the base64 alphabet,
and the fine string is never longer than the coarse one. -/
def SInv (st : ssdeepState) : Prop :=
  st.hashString1.length ≤ spamSumLength - 1 ∧
  st.hashString2.length ≤ spamSumLength / 2 - 1 ∧
  (∀ c ∈ st.hashString1, c ∈ b64) ∧
  (∀ c ∈ st.hashString2, c ∈ b64) ∧
  st.hashString2.length ≤ st.hashString1.length

/-- The rolling state reached by pushing only zero bytes: all accumulators
zero, the window all zeros, the cursor inside the window. -/
def Zro (rs : rollingState) : Prop :=
  rs.h1 = 0 ∧ rs.h2 = 0 ∧ rs.h3 = 0 ∧
  rs.window = List.replicate rollingWindow 0 ∧ rs.n < rollingWindow

/-- The window invariant of the rolling state: the window holds exactly
`rollingWindow` bytes, the cursor is inside it, and `h1` is the sum of the
window's bytes. -/
def WInv (rs : rollingState) : Prop :=
  rs.window.length = rollingWindow ∧ (∀ x ∈ rs.window, x < 256) ∧
  rs.n < rollingWindow ∧ rs.h1 = rs.window.sum

/-! ### Basic preservation lemmas -/

theorem foldl_inv {α β : Type} {P : α → Prop} (f : α → β → α)
    (hf : ∀ a b, P a → P (f a b)) :
    ∀ (l : List β) (a : α), P a → P (l.foldl f a)
  | [], _, h => h
  | b :: l, a, h => foldl_inv f hf l (f a b) (hf a b h)

theorem processByte_blockSize (st : ssdeepState) (b : Nat) :
    (processByte st b).blockSize = st.blockSize := by
  simp only [processByte]
  repeat' split
  all_goals rfl

theorem process_blockSize (st : ssdeepState) (src : ByteSource) :
    (process st src).blockSize = st.blockSize := by
  unfold process
  exact foldl_inv (P := fun s => s.blockSize = st.blockSize) processByte
    (fun a b h => (processByte_blockSize a b).trans h) src.bytes
    { st with rollingState := freshRollingState } rfl

/-! ### Block-size selection -/

theorem getBlockSizeLoop_ge (fuel n b : Nat) : b ≤ getBlockSizeLoop fuel n b := by
  induction fuel generalizing b with
  | zero => exact Nat.le_refl b
  | succ fuel ih =>
    simp only [getBlockSizeLoop]
    split
    · exact Nat.le_trans (Nat.le_mul_of_pos_right b (by omega)) (ih (b * 2))
    · exact Nat.le_refl b

theorem getBlockSizeLoop_spec (fuel n b : Nat) (hb : 0 < b)
    (hfuel : n ≤ b * spamSumLength * 2 ^ fuel) :
    ∃ k, getBlockSizeLoop fuel n b = b * 2 ^ k ∧
      n ≤ b * 2 ^ k * spamSumLength ∧
      ∀ j, n ≤ b * 2 ^ j * spamSumLength → b * 2 ^ k ≤ b * 2 ^ j := by
  induction fuel generalizing b with
  | zero =>
    refine ⟨0, by simp [getBlockSizeLoop], ?_, ?_⟩
    · simpa using (by simpa using hfuel : n ≤ b * spamSumLength)
    · intro j _
      exact Nat.mul_le_mul_left b (Nat.one_le_two_pow)
  | succ fuel ih =>
    simp only [getBlockSizeLoop]
    split
    · rename_i hlt
      have hfuel2 : n ≤ b * 2 * spamSumLength * 2 ^ fuel := by
        calc n ≤ b * spamSumLength * 2 ^ (fuel + 1) := hfuel
        _ = b * 2 * spamSumLength * 2 ^ fuel := by ring
      obtain ⟨k, hres, hle, hmin⟩ := ih (b * 2) (by omega) hfuel2
      refine ⟨k + 1, ?_, ?_, ?_⟩
      · rw [hres]; ring
      · calc n ≤ b * 2 * 2 ^ k * spamSumLength := hle
        _ = b * 2 ^ (k + 1) * spamSumLength := by ring
      · intro j hj
        cases j with
        | zero =>
          exfalso
          have : n ≤ b * spamSumLength := by simpa using hj
          omega
        | succ j =>
          have hj2 : n ≤ b * 2 * 2 ^ j * spamSumLength := by
            calc n ≤ b * 2 ^ (j + 1) * spamSumLength := hj
            _ = b * 2 * 2 ^ j * spamSumLength := by ring
          calc b * 2 ^ (k + 1) = b * 2 * 2 ^ k := by ring
          _ ≤ b * 2 * 2 ^ j := hmin j hj2
          _ = b * 2 ^ (j + 1) := by ring
    · rename_i hge
      refine ⟨0, by simp, by simpa using (by omega : n ≤ b * spamSumLength), ?_⟩
      intro j _
      exact Nat.mul_le_mul_left b (Nat.one_le_two_pow)

theorem getBlockSize_spec (n : Nat) :
    ∃ k, getBlockSize n = 3 * 2 ^ k ∧
      n ≤ 3 * 2 ^ k * spamSumLength ∧
      ∀ j, n ≤ 3 * 2 ^ j * spamSumLength → 3 * 2 ^ k ≤ 3 * 2 ^ j := by
  have hfuel : n ≤ 3 * spamSumLength * 2 ^ n := by
    have h1 : n < 2 ^ n := Nat.lt_two_pow n
    have h2 : 2 ^ n ≤ 3 * spamSumLength * 2 ^ n :=
      Nat.le_mul_of_pos_left _ (by simp [spamSumLength])
    omega
  exact getBlockSizeLoop_spec n n 3 (by omega) hfuel

theorem getBlockSize_pos (n : Nat) : 0 < getBlockSize n := by
  have := getBlockSizeLoop_ge n n blockMin
  unfold getBlockSize
  unfold blockMin at *
  omega

/-! ### Shapes of the loop's results -/

theorem fuzzyLoop_error_shape (fuel : Nat) (src : ByteSource) (st : ssdeepState)
    (e : FuzzyError) (h : fuzzyLoop fuel src st = .error e) : e = .smallBlock := by
  induction fuel generalizing st with
  | zero =>
    simp only [fuzzyLoop, Except.error.injEq] at h
    exact h.symm
  | succ fuel ih =>
    simp only [fuzzyLoop] at h
    split at h
    · simpa [Except.error.injEq, eq_comm] using h
    · split at h
      · exact ih _ h
      · simp at h

theorem fuzzyLoop_readErr (fuel : Nat) (bytes : List Nat) (e : Option String)
    (st : ssdeepState) :
    fuzzyLoop fuel { bytes := bytes, readErr := e } st =
      fuzzyLoop fuel { bytes := bytes, readErr := none } st := by
  induction fuel generalizing st with
  | zero => rfl
  | succ fuel ih =>
    have hp : process st { bytes := bytes, readErr := e } =
        process st { bytes := bytes, readErr := none } := rfl
    simp only [fuzzyLoop, hp]
    split
    · rfl
    · split
      · exact ih _
      · rfl

theorem FuzzyReader_readErr (src : ByteSource) (size : Nat) :
    FuzzyReader src size = FuzzyReader { bytes := src.bytes, readErr := none } size := by
  cases src with
  | mk bytes e =>
    simp only [FuzzyReader]
    rw [fuzzyLoop_readErr]

/-! ### Scanning an all-zero input -/

theorem getD_replicate_zero (k i : Nat) : (List.replicate k (0 : Nat)).getD i 0 = 0 := by
  induction k generalizing i with
  | zero => simp [List.getD]
  | succ k ih =>
    cases i with
    | zero => simp [List.replicate_succ, List.getD]
    | succ i => simp [List.replicate_succ, List.getD, ih i]

theorem set_replicate_zero (k i : Nat) :
    (List.replicate k (0 : Nat)).set i 0 = List.replicate k 0 := by
  induction k generalizing i with
  | zero => simp
  | succ k ih =>
    cases i with
    | zero => simp [List.replicate_succ]
    | succ i => simp [List.replicate_succ, ih i]

theorem rollHash_zero (rs : rollingState) (hz : Zro rs) :
    Zro (rollHash rs 0) ∧ (rollHash rs 0).rollSum = 0 := by
  obtain ⟨e1, e2, e3, e4, e5⟩ := hz
  have hw : rs.window.getD rs.n 0 = 0 := by
    rw [e4]; exact getD_replicate_zero _ _
  have h1z : (rollHash rs 0).h1 = 0 := by
    simp only [rollHash, e1, hw]; norm_num [u32]
  have h2z : (rollHash rs 0).h2 = 0 := by
    simp only [rollHash, e1, e2]; norm_num [u32]
  have h3z : (rollHash rs 0).h3 = 0 := by
    simp only [rollHash, e3]; norm_num [u32]
  have hwz : (rollHash rs 0).window = List.replicate rollingWindow 0 := by
    simp only [rollHash, e4]; exact set_replicate_zero _ _
  have hnz : (rollHash rs 0).n < rollingWindow := by
    simp only [rollHash]
    simp only [rollingWindow] at e5 ⊢
    split <;> omega
  refine ⟨⟨h1z, h2z, h3z, hwz, hnz⟩, ?_⟩
  simp only [rollingState.rollSum, h1z, h2z, h3z]
  norm_num [u32]

theorem processByte_zero (st : ssdeepState) (hb : 2 ≤ st.blockSize)
    (hz : Zro st.rollingState) :
    (processByte st 0).hashString1 = st.hashString1 ∧
    (processByte st 0).hashString2 = st.hashString2 ∧
    Zro (processByte st 0).rollingState := by
  obtain ⟨hz2, hsum⟩ := rollHash_zero st.rollingState hz
  simp only [processByte, hsum]
  rw [if_neg (by simp only [Nat.zero_mod]; omega)]
  exact ⟨rfl, rfl, hz2⟩

theorem foldl_zeros (m : Nat) : ∀ st : ssdeepState, 2 ≤ st.blockSize →
    Zro st.rollingState →
    ((List.replicate m 0).foldl processByte st).hashString1 = st.hashString1 ∧
    ((List.replicate m 0).foldl processByte st).hashString2 = st.hashString2 := by
  induction m with
  | zero => intro st _ _; exact ⟨rfl, rfl⟩
  | succ m ih =>
    intro st hb hz
    rw [List.replicate_succ, List.foldl_cons]
    obtain ⟨h1, h2, hz2⟩ := processByte_zero st hb hz
    have hb2 : 2 ≤ (processByte st 0).blockSize := by
      rw [processByte_blockSize]; exact hb
    obtain ⟨i1, i2⟩ := ih (processByte st 0) hb2 hz2
    exact ⟨i1.trans h1, i2.trans h2⟩

theorem process_zeros (st : ssdeepState) (m : Nat) (e : Option String)
    (hb : 2 ≤ st.blockSize) :
    (process st { bytes := List.replicate m 0, readErr := e }).hashString1 =
      st.hashString1 ∧
    (process st { bytes := List.replicate m 0, readErr := e }).hashString2 =
      st.hashString2 := by
  unfold process
  exact foldl_zeros m { st with rollingState := freshRollingState } hb
    ⟨rfl, rfl, rfl, rfl, by simp [freshRollingState, rollingWindow]⟩

theorem fuzzyLoop_zeros (fuel : Nat) : ∀ (st : ssdeepState) (m : Nat)
    (e : Option String), 0 < st.blockSize → st.hashString1 = [] →
    fuzzyLoop fuel { bytes := List.replicate m 0, readErr := e } st =
      .error .smallBlock := by
  induction fuel with
  | zero => intro st m e _ _; rfl
  | succ fuel ih =>
    intro st m e hpos hs1
    simp only [fuzzyLoop]
    by_cases hb : st.blockSize < blockMin
    · rw [if_pos (by rw [process_blockSize]; exact hb)]
    · rw [if_neg (by rw [process_blockSize]; exact hb)]
      unfold blockMin at hb
      have hstr := (process_zeros st m e (by omega)).1
      rw [if_pos (by rw [hstr, hs1]; simp [spamSumLength])]
      apply ih
      · have := process_blockSize st { bytes := List.replicate m 0, readErr := e }
        simp only [this]
        omega
      · rfl

theorem zeros4096_smallBlock :
    FuzzyReader { bytes := List.replicate 4096 0, readErr := none } 4096 =
      .error .smallBlock := by
  unfold FuzzyReader
  rw [if_neg (by simp only [minFileSize]; omega)]
  rw [fuzzyLoop_zeros _ _ 4096 none (getBlockSize_pos 4096) rfl]

/-! ### The string invariant -/

theorem getD_mem {α : Type} (l : List α) (i : Nat) (d : α) (h : i < l.length) :
    l.getD i d ∈ l := by
  induction l generalizing i with
  | nil => simp at h
  | cons a l ih =>
    cases i with
    | zero => simp [List.getD]
    | succ i =>
      have := ih i (by simpa using h)
      simp only [List.getD] at this ⊢
      exact List.mem_cons_of_mem a this

theorem b64_getD_mem (x : Nat) : b64.getD (x % 64) 'A' ∈ b64 := by
  refine getD_mem b64 (x % 64) 'A' ?_
  have hlen : b64.length = 64 := by decide
  rw [hlen]
  exact Nat.mod_lt x (by omega)

theorem processByte_SInv (st : ssdeepState) (b : Nat) (hI : SInv st) :
    SInv (processByte st b) := by
  obtain ⟨l1, l2, m1, m2, l21⟩ := hI
  simp only [processByte]
  split
  · split
    · rename_i hg1
      split
      · split
        · rename_i hg2
          refine ⟨?_, ?_, ?_, ?_, ?_⟩ <;>
            simp only [List.length_append, List.length_cons, List.length_nil,
              List.mem_append, List.mem_singleton]
          · simp only [spamSumLength] at hg1 ⊢; omega
          · simp only [spamSumLength] at hg2 ⊢; omega
          · intro c hc
            rcases hc with hc | hc
            · exact m1 c hc
            · rw [hc]; exact b64_getD_mem _
          · intro c hc
            rcases hc with hc | hc
            · exact m2 c hc
            · rw [hc]; exact b64_getD_mem _
          · omega
        · refine ⟨?_, l2, ?_, m2, ?_⟩ <;>
            simp only [List.length_append, List.length_cons, List.length_nil,
              List.mem_append, List.mem_singleton]
          · simp only [spamSumLength] at hg1 ⊢; omega
          · intro c hc
            rcases hc with hc | hc
            · exact m1 c hc
            · rw [hc]; exact b64_getD_mem _
          · omega
      · refine ⟨?_, l2, ?_, m2, ?_⟩ <;>
          simp only [List.length_append, List.length_cons, List.length_nil,
            List.mem_append, List.mem_singleton]
        · simp only [spamSumLength] at hg1 ⊢; omega
        · intro c hc
          rcases hc with hc | hc
          · exact m1 c hc
          · rw [hc]; exact b64_getD_mem _
        · omega
    · rename_i hg1
      split
      · split
        · rename_i hg2
          refine ⟨l1, ?_, m1, ?_, ?_⟩ <;>
            simp only [List.length_append, List.length_cons, List.length_nil,
              List.mem_append, List.mem_singleton]
          · simp only [spamSumLength] at hg2 ⊢; omega
          · intro c hc
            rcases hc with hc | hc
            · exact m2 c hc
            · rw [hc]; exact b64_getD_mem _
          · simp only [spamSumLength] at hg1 hg2 l1 l2 ⊢; omega
        · exact ⟨l1, l2, m1, m2, l21⟩
      · exact ⟨l1, l2, m1, m2, l21⟩
  · exact ⟨l1, l2, m1, m2, l21⟩

theorem process_SInv (st : ssdeepState) (src : ByteSource) (hI : SInv st) :
    SInv (process st src) := by
  unfold process
  exact foldl_inv processByte processByte_SInv src.bytes
    { st with rollingState := freshRollingState } hI

theorem fuzzyLoop_ok (fuel : Nat) : ∀ (src : ByteSource) (st st2 : ssdeepState),
    SInv st → fuzzyLoop fuel src st = .ok st2 →
    blockMin ≤ st2.blockSize ∧
    st2.hashString1.length ≤ spamSumLength ∧
    st2.hashString2.length ≤ spamSumLength / 2 ∧
    (∀ c ∈ st2.hashString1, c ∈ b64) ∧
    (∀ c ∈ st2.hashString2, c ∈ b64) ∧
    st2.hashString2.length ≤ st2.hashString1.length := by
  induction fuel with
  | zero =>
    intro src st st2 _ h
    simp only [fuzzyLoop] at h
    exact absurd h (by simp)
  | succ fuel ih =>
    intro src st st2 hI h
    have hI1 : SInv (process st src) := process_SInv st src hI
    simp only [fuzzyLoop] at h
    split at h
    · simp at h
    · split at h
      · exact ih src _ st2 ⟨by simp, by simp, by simp, by simp, by simp⟩ h
      · rename_i hb _
        obtain ⟨l1, l2, m1, m2, l21⟩ := hI1
        rw [Except.ok.injEq] at h
        split at h
        · subst h
          refine ⟨by simpa using hb, ?_, ?_, ?_, ?_, ?_⟩ <;>
            simp only [List.length_append, List.length_cons, List.length_nil,
              List.mem_append, List.mem_singleton]
          · simp only [spamSumLength] at l1 ⊢; omega
          · simp only [spamSumLength] at l2 ⊢; omega
          · intro c hc
            rcases hc with hc | hc
            · exact m1 c hc
            · rw [hc]; exact b64_getD_mem _
          · intro c hc
            rcases hc with hc | hc
            · exact m2 c hc
            · rw [hc]; exact b64_getD_mem _
          · omega
        · subst h
          refine ⟨by simpa using hb, ?_, ?_, m1, m2, l21⟩
          · simp only [spamSumLength] at l1 ⊢; omega
          · simp only [spamSumLength] at l2 ⊢; omega

/-! ### The pass trace: block-size forms, length bound, fuel irrelevance -/

theorem fuzzyLoopSizes_form (fuel : Nat) : ∀ (src : ByteSource) (st : ssdeepState),
    (st.blockSize = 1 ∨ ∃ k, st.blockSize = 3 * 2 ^ k) →
    ∀ b ∈ fuzzyLoopSizes fuel src st, 0 < b ∧ (b = 1 ∨ ∃ k, b = 3 * 2 ^ k) := by
  induction fuel with
  | zero => intro src st _ b hb; simp [fuzzyLoopSizes] at hb
  | succ fuel ih =>
    intro src st hform b hb
    have hpos : 0 < st.blockSize := by
      rcases hform with h | ⟨k, h⟩ <;> rw [h]
      · omega
      · have : 1 ≤ 2 ^ k := Nat.one_le_two_pow; omega
    simp only [fuzzyLoopSizes] at hb
    rw [process_blockSize] at hb
    split at hb
    · rw [List.mem_singleton] at hb
      subst hb
      exact ⟨hpos, hform⟩
    · split at hb
      · rcases List.mem_cons.mp hb with rfl | hmem
        · exact ⟨hpos, hform⟩
        · rename_i hb3 _
          refine ih src _ ?_ b hmem
          show st.blockSize / 2 = 1 ∨ ∃ k, st.blockSize / 2 = 3 * 2 ^ k
          rcases hform with h | ⟨k, h⟩
          · exfalso; rw [h] at hb3; exact hb3 (by simp [blockMin])
          · cases k with
            | zero => left; rw [h]; simp
            | succ k =>
              right; exact ⟨k, by rw [h, pow_succ]; omega⟩
      · rw [List.mem_singleton] at hb
        subst hb
        exact ⟨hpos, hform⟩

theorem log2_step (b : Nat) (h : 2 ≤ b) : Nat.log2 b = Nat.log2 (b / 2) + 1 := by
  rw [Nat.log2]
  rw [if_pos h]

theorem fuzzyLoopSizes_length (fuel : Nat) : ∀ (src : ByteSource)
    (st : ssdeepState), 0 < st.blockSize →
    (fuzzyLoopSizes fuel src st).length ≤ Nat.log2 st.blockSize + 2 := by
  induction fuel with
  | zero => intro src st _; simp [fuzzyLoopSizes]
  | succ fuel ih =>
    intro src st hpos
    simp only [fuzzyLoopSizes]
    rw [process_blockSize]
    split
    · simp
    · split
      · rename_i hb3 _
        simp only [blockMin] at hb3
        simp only [List.length_cons]
        calc (fuzzyLoopSizes fuel src _).length + 1 ≤
            (Nat.log2 (st.blockSize / 2) + 2) + 1 :=
              Nat.add_le_add_right
                (ih src _ (by show 0 < st.blockSize / 2; omega)) 1
        _ ≤ Nat.log2 st.blockSize + 2 := by
              rw [log2_step st.blockSize (by omega)]
      · simp

theorem fuzzyLoop_fuel (fuel : Nat) : ∀ (fuel2 : Nat) (src : ByteSource)
    (st : ssdeepState), st.blockSize + 1 ≤ fuel → st.blockSize + 1 ≤ fuel2 →
    fuzzyLoop fuel src st = fuzzyLoop fuel2 src st := by
  induction fuel with
  | zero => intro fuel2 src st h1 _; omega
  | succ fuel ih =>
    intro fuel2 src st h1 h2
    cases fuel2 with
    | zero => omega
    | succ fuel2 =>
      simp only [fuzzyLoop]
      split
      · rfl
      · split
        · rename_i hb3 _
          rw [process_blockSize] at hb3
          simp only [blockMin] at hb3
          refine ih fuel2 src _ ?_ ?_ <;>
            · show (process st src).blockSize / 2 + 1 ≤ _
              rw [process_blockSize]
              omega
        · rfl

/-! ### Inputs too uniform at every block size -/

theorem process_congr (st st2 : ssdeepState) (src : ByteSource)
    (h1 : st.blockSize = st2.blockSize) (h2 : st.hashString1 = st2.hashString1)
    (h3 : st.hashString2 = st2.hashString2) (h4 : st.blockHash1 = st2.blockHash1)
    (h5 : st.blockHash2 = st2.blockHash2) :
    process st src = process st2 src := by
  cases st
  cases st2
  dsimp only at h1 h2 h3 h4 h5
  subst h1; subst h2; subst h3; subst h4; subst h5
  rfl

theorem fuzzyLoop_allShort (fuel : Nat) : ∀ (src : ByteSource) (st : ssdeepState),
    (∀ b, blockMin ≤ b →
      (process { newSsdeepState with blockSize := b } src).hashString1.length <
        spamSumLength / 2) →
    st.hashString1 = [] → st.hashString2 = [] →
    st.blockHash1 = hashInit → st.blockHash2 = hashInit →
    fuzzyLoop fuel src st = .error .smallBlock := by
  induction fuel with
  | zero => intro src st _ _ _ _ _; rfl
  | succ fuel ih =>
    intro src st hshort h1 h2 h3 h4
    simp only [fuzzyLoop]
    by_cases hb : st.blockSize < blockMin
    · rw [if_pos (by rw [process_blockSize]; exact hb)]
    · rw [if_neg (by rw [process_blockSize]; exact hb)]
      have heq : process st src =
          process { newSsdeepState with blockSize := st.blockSize } src :=
        process_congr _ _ src rfl h1 h2 h3 h4
      have hlen : (process st src).hashString1.length < spamSumLength / 2 := by
        rw [heq]
        exact hshort st.blockSize (Nat.not_lt.mp hb)
      rw [if_pos hlen]
      exact ih src _ hshort rfl rfl rfl rfl

theorem zeros_one_mem (fuel : Nat) : ∀ (st : ssdeepState) (m : Nat)
    (e : Option String),
    (st.blockSize = 1 ∨ ∃ k, st.blockSize = 3 * 2 ^ k) →
    st.hashString1 = [] → st.blockSize + 1 ≤ fuel →
    (1 : Nat) ∈ fuzzyLoopSizes fuel { bytes := List.replicate m 0, readErr := e } st := by
  induction fuel with
  | zero => intro st m e _ _ hf; omega
  | succ fuel ih =>
    intro st m e hform hs1 hf
    simp only [fuzzyLoopSizes]
    rw [process_blockSize]
    rcases hform with h1 | ⟨k, hk⟩
    · rw [if_pos (by rw [h1]; simp [blockMin])]
      simp [h1]
    · have hge3 : 3 ≤ st.blockSize := by
        rw [hk]; have : 1 ≤ 2 ^ k := Nat.one_le_two_pow; omega
      rw [if_neg (by simp only [blockMin]; omega)]
      rw [if_pos (by
        rw [(process_zeros st m e (by omega)).1, hs1]
        simp [spamSumLength])]
      refine List.mem_cons_of_mem _ (ih _ m e ?_ rfl ?_)
      · show st.blockSize / 2 = 1 ∨ ∃ j, st.blockSize / 2 = 3 * 2 ^ j
        cases k with
        | zero => left; rw [hk]; simp
        | succ k => right; exact ⟨k, by rw [hk, pow_succ]; omega⟩
      · show st.blockSize / 2 + 1 ≤ fuel
        omega

/-! ### The rolling-window sum invariant -/

theorem sum_set_getD (l : List Nat) : ∀ (i a : Nat), i < l.length →
    (l.set i a).sum + l.getD i 0 = l.sum + a := by
  induction l with
  | nil => intro i a h; simp at h
  | cons x l ih =>
    intro i a h
    cases i with
    | zero => simp; omega
    | succ i =>
      have := ih i a (by simpa using h)
      simp only [List.set, List.getD_cons_succ, List.sum_cons]
      omega

theorem mem_le_sum (l : List Nat) (x : Nat) (h : x ∈ l) : x ≤ l.sum := by
  induction l with
  | nil => simp at h
  | cons y l ih =>
    rcases List.mem_cons.mp h with rfl | h2
    · simp [List.sum_cons]
    · have := ih h2
      simp only [List.sum_cons]
      omega

theorem sum_le_bound (l : List Nat) (h : ∀ x ∈ l, x < 256) :
    l.sum ≤ 255 * l.length := by
  induction l with
  | nil => simp
  | cons y l ih =>
    have h1 : y < 256 := h y (List.mem_cons_self y l)
    have h2 := ih (fun x hx => h x (List.mem_cons_of_mem y hx))
    simp only [List.sum_cons, List.length_cons]
    omega

theorem rollHash_WInv (rs : rollingState) (c : Nat) (hc : c < 256)
    (hI : WInv rs) : WInv (rollHash rs c) := by
  obtain ⟨hlen, hmem, hn, hsum⟩ := hI
  have hwlt : rs.n < rs.window.length := by rw [hlen]; exact hn
  have hw_mem : rs.window.getD rs.n 0 ∈ rs.window := getD_mem _ _ _ hwlt
  have hw_le : rs.window.getD rs.n 0 ≤ rs.window.sum := mem_le_sum _ _ hw_mem
  have hbound : rs.window.sum ≤ 255 * rollingWindow := by
    have := sum_le_bound rs.window hmem
    rw [hlen] at this
    exact this
  have hset : (rs.window.set rs.n c).sum + rs.window.getD rs.n 0 =
      rs.window.sum + c := sum_set_getD rs.window rs.n c hwlt
  refine ⟨?_, ?_, ?_, ?_⟩
  · show (rs.window.set rs.n c).length = rollingWindow
    rw [List.length_set]; exact hlen
  · intro x hx
    rcases List.mem_or_eq_of_mem_set hx with hx2 | rfl
    · exact hmem x hx2
    · exact hc
  · show (if rs.n + 1 = rollingWindow then 0 else rs.n + 1) < rollingWindow
    simp only [rollingWindow] at hn ⊢
    split <;> omega
  · show ((rs.h1 + c) % u32 + u32 - rs.window.getD rs.n 0) % u32 =
      (rs.window.set rs.n c).sum
    simp only [rollingWindow] at hbound
    simp only [u32] at *
    omega

theorem foldl_WInv (bs : List Nat) : ∀ rs : rollingState,
    (∀ b ∈ bs, b < 256) → WInv rs → WInv (bs.foldl rollHash rs) := by
  induction bs with
  | nil => intro rs _ h; exact h
  | cons b bs ih =>
    intro rs hb hI
    rw [List.foldl_cons]
    exact ih (rollHash rs b) (fun x hx => hb x (List.mem_cons_of_mem b hx))
      (rollHash_WInv rs b (hb b (List.mem_cons_self b bs)) hI)

theorem freshRollingState_WInv : WInv freshRollingState := by
  refine ⟨by simp [freshRollingState], ?_, by simp [freshRollingState, rollingWindow], ?_⟩
  · intro x hx
    simp only [freshRollingState] at hx
    rw [List.eq_of_mem_replicate hx]
    omega
  · simp [freshRollingState]

/-- A fine-length-only preservation step: if the fine string is no longer
than the coarse one, `processByte` keeps it so (the fine append is gated at
31, and a skipped coarse append means the coarse string already holds 63). -/
theorem processByte_fineLeCoarse (st : ssdeepState) (b : Nat)
    (h : st.hashString2.length ≤ st.hashString1.length) :
    (processByte st b).hashString2.length ≤ (processByte st b).hashString1.length := by
  simp only [processByte]
  split
  · split
    · rename_i hg1
      split
      · split
        · rename_i hg2
          simp only [List.length_append, List.length_cons, List.length_nil]
          simp only [spamSumLength] at hg1 hg2
          omega
        · simp only [List.length_append, List.length_cons, List.length_nil]
          omega
      · simp only [List.length_append, List.length_cons, List.length_nil]
        omega
    · rename_i hg1
      split
      · split
        · rename_i hg2
          simp only [List.length_append, List.length_cons, List.length_nil]
          simp only [spamSumLength] at hg1 hg2
          omega
        · exact h
      · exact h
  · exact h

/-! ## The claims -/

/-- C1, counterexample: on the input of exactly 4096 zero-valued bytes the
digest computation does not succeed; it returns `ErrSmallBlock` (the rolling
sum of an all-zero window is 0, no boundary ever triggers for a block size
of at least 2, and the block size shrinks from 96 past the minimum). -/
theorem claim1_counterexample :
    FuzzyBytes (List.replicate 4096 0) = Except.error FuzzyError.smallBlock := by
  show FuzzyReader { bytes := List.replicate 4096 0, readErr := none }
    (List.replicate 4096 0).length = Except.error FuzzyError.smallBlock
  rw [List.length_replicate]
  exact zeros4096_smallBlock

/-- C1, amended: for the input of exactly 4096 zero-valued bytes, the digest
computation (`FuzzyReader` with size 4096, as called by `FuzzyBytes`) fails
with `ErrSmallBlock` instead of returning a digest. -/
theorem claim1 :
    FuzzyReader { bytes := List.replicate 4096 0, readErr := none } 4096 =
      Except.error FuzzyError.smallBlock ∧
    FuzzyBytes (List.replicate 4096 0) = Except.error FuzzyError.smallBlock := by
  constructor
  · exact zeros4096_smallBlock
  · show FuzzyReader { bytes := List.replicate 4096 0, readErr := none }
      (List.replicate 4096 0).length = Except.error FuzzyError.smallBlock
    rw [List.length_replicate]
    exact zeros4096_smallBlock

/-- C2, counterexample: a source that reports an I/O failure on its very
first read (and declares 4096 bytes) does not get that failure propagated:
`FuzzyReader` instead runs its shrink loop on the empty prefix and returns
`ErrSmallBlock`. -/
theorem claim2_counterexample :
    FuzzyReader { bytes := [], readErr := some "read failure" } 4096 =
      Except.error FuzzyError.smallBlock := by rfl

/-- C2, amended: an I/O failure from the byte source is silently discarded,
never propagated: the scanning loop merely stops at the failure as if the
data had ended, the result is the same as for a source that ends cleanly
after the same bytes, and no I/O error is ever returned. -/
theorem claim2 (src : ByteSource) (size : Nat) (e : String) :
    FuzzyReader src size = FuzzyReader { bytes := src.bytes, readErr := none } size ∧
    FuzzyReader src size ≠ Except.error (FuzzyError.ioError e) := by
  refine ⟨FuzzyReader_readErr src size, ?_⟩
  intro h
  unfold FuzzyReader at h
  split at h
  · simp at h
  · split at h
    · rename_i e2 heq
      rw [fuzzyLoop_error_shape _ _ _ _ heq] at h
      simp at h
    · simp at h

/-- C3: for every declared length of at least 4096 bytes, the selected block
size is the smallest power-of-two multiple of 3 whose product with 64
reaches the length, and it is the block size the first scanning pass runs
with. -/
theorem claim3 (n : Nat) (h : minFileSize ≤ n) :
    (∃ k, getBlockSize n = 3 * 2 ^ k ∧ n ≤ 3 * 2 ^ k * spamSumLength ∧
      ∀ j, n ≤ 3 * 2 ^ j * spamSumLength → 3 * 2 ^ k ≤ 3 * 2 ^ j) ∧
    ∀ src : ByteSource, (fuzzyPassSizes src n).head? = some (getBlockSize n) := by
  constructor
  · exact getBlockSize_spec n
  · intro src
    unfold fuzzyPassSizes
    rw [if_neg (by omega)]
    simp only [fuzzyLoopSizes]
    split
    · rfl
    · split <;> rfl

/-- C3, witness at the boundary length 4096: the selected block size is
96 = 3 * 2 ^ 5, the least admissible multiple. -/
theorem claim3_witness :
    (∃ k, getBlockSize 4096 = 3 * 2 ^ k ∧ 4096 ≤ 3 * 2 ^ k * spamSumLength ∧
      ∀ j, 4096 ≤ 3 * 2 ^ j * spamSumLength → 3 * 2 ^ k ≤ 3 * 2 ^ j) ∧
    ∀ src : ByteSource, (fuzzyPassSizes src 4096).head? = some (getBlockSize 4096) :=
  claim3 4096 (by decide)

/-- C4: every digest string returned with a nil error has the exact shape
`<blockSize>:<coarse>:<fine>` with a positive block size, the coarse string
at most 64 characters, the fine string at most 32 characters, and both drawn
from the fixed base64 alphabet. -/
theorem claim4 (src : ByteSource) (size : Nat) (d : String)
    (h : FuzzyReader src size = Except.ok d) :
    ∃ bs s1 s2, d = formatDigest bs s1 s2 ∧ 0 < bs ∧
      s1.length ≤ spamSumLength ∧ s2.length ≤ spamSumLength / 2 ∧
      (∀ c ∈ s1, c ∈ b64) ∧ (∀ c ∈ s2, c ∈ b64) := by
  unfold FuzzyReader at h
  split at h
  · simp at h
  · split at h
    · simp at h
    · rename_i st heq
      obtain ⟨hb, h1, h2, h3, h4, h5⟩ := fuzzyLoop_ok _ src _ st
        ⟨by simp [newSsdeepState], by simp [newSsdeepState], by simp [newSsdeepState],
          by simp [newSsdeepState], by simp [newSsdeepState]⟩ heq
      rw [Except.ok.injEq] at h
      refine ⟨st.blockSize, st.hashString1, st.hashString2, h.symm, ?_, h1, h2, h3, h4⟩
      simp only [blockMin] at hb
      omega

/-- C4, witness: the concrete successful digest of `witnessSource` at
declared size 4096 has the required shape and alphabet. -/
theorem claim4_witness :
    ∃ bs s1 s2, witnessDigest = formatDigest bs s1 s2 ∧ 0 < bs ∧
      s1.length ≤ spamSumLength ∧ s2.length ≤ spamSumLength / 2 ∧
      (∀ c ∈ s1, c ∈ b64) ∧ (∀ c ∈ s2, c ∈ b64) :=
  claim4 witnessSource 4096 witnessDigest (by rfl)

/-- C5: pushing any sequence of bytes through `rollHash` from the fresh
rolling state leaves `h1` equal to the sum, modulo 2 ^ 32, of the bytes
currently held in the 7-slot circular window; as the pushed prefix is
arbitrary, the invariant holds after every push. -/
theorem claim5 (bs : List Nat) (h : ∀ b ∈ bs, b < 256) :
    (bs.foldl rollHash freshRollingState).h1 =
      (bs.foldl rollHash freshRollingState).window.sum % u32 := by
  obtain ⟨hlen, hmem, _, hsum⟩ := foldl_WInv bs freshRollingState h
    freshRollingState_WInv
  have hb := sum_le_bound _ hmem
  rw [hlen] at hb
  rw [hsum]
  refine (Nat.mod_eq_of_lt ?_).symm
  simp only [rollingWindow] at hb
  simp only [u32]
  omega

/-- C5, witness on the concrete pushed bytes 10, 200, 7. -/
theorem claim5_witness :
    (([10, 200, 7] : List Nat).foldl rollHash freshRollingState).h1 =
      (([10, 200, 7] : List Nat).foldl rollHash freshRollingState).window.sum % u32 :=
  claim5 [10, 200, 7] (by decide)

/-- C6: for a declared size of at least 4096 the shrink-and-rescan loop is
bounded: the number of scanning passes is at most `log2` of the initial
block size plus 2, extra fuel beyond the initial block size never changes
the loop's result, and an input whose coarse string stays below 32
characters at every admissible block size makes `FuzzyReader` return
`ErrSmallBlock` rather than loop or return a malformed digest. -/
theorem claim6 (src : ByteSource) (size : Nat) (h : minFileSize ≤ size) :
    (fuzzyPassSizes src size).length ≤ Nat.log2 (getBlockSize size) + 2 ∧
    ((∀ b, blockMin ≤ b →
        (process { newSsdeepState with blockSize := b } src).hashString1.length <
          spamSumLength / 2) →
      FuzzyReader src size = Except.error FuzzyError.smallBlock) ∧
    ∀ fuel, getBlockSize size + 1 ≤ fuel →
      fuzzyLoop fuel src { newSsdeepState with blockSize := getBlockSize size } =
        fuzzyLoop (getBlockSize size + 1) src
          { newSsdeepState with blockSize := getBlockSize size } := by
  refine ⟨?_, ?_, ?_⟩
  · unfold fuzzyPassSizes
    rw [if_neg (by omega)]
    exact fuzzyLoopSizes_length _ src _ (getBlockSize_pos size)
  · intro hshort
    unfold FuzzyReader
    rw [if_neg (by omega)]
    rw [fuzzyLoop_allShort _ src _ hshort rfl rfl rfl rfl]
  · intro fuel hf
    refine fuzzyLoop_fuel fuel _ src _ ?_ ?_ <;>
      · show getBlockSize size + 1 ≤ _
        omega

/-- C6, witness at the all-zeros source of size 4096 (which does exhaust
every admissible block size and ends in `ErrSmallBlock`). -/
theorem claim6_witness :
    (fuzzyPassSizes { bytes := List.replicate 4096 0, readErr := none } 4096).length ≤
      Nat.log2 (getBlockSize 4096) + 2 ∧
    ((∀ b, blockMin ≤ b →
        (process { newSsdeepState with blockSize := b }
          { bytes := List.replicate 4096 0, readErr := none }).hashString1.length <
          spamSumLength / 2) →
      FuzzyReader { bytes := List.replicate 4096 0, readErr := none } 4096 =
        Except.error FuzzyError.smallBlock) ∧
    ∀ fuel, getBlockSize 4096 + 1 ≤ fuel →
      fuzzyLoop fuel { bytes := List.replicate 4096 0, readErr := none }
          { newSsdeepState with blockSize := getBlockSize 4096 } =
        fuzzyLoop (getBlockSize 4096 + 1)
          { bytes := List.replicate 4096 0, readErr := none }
          { newSsdeepState with blockSize := getBlockSize 4096 } :=
  claim6 { bytes := List.replicate 4096 0, readErr := none } 4096 (by decide)

/-- C7: `FuzzyReader` returns `ErrSmallInput` exactly when the declared
length is below 4096; in that case the result does not depend on the byte
source at all (nothing is read before the guard fails). -/
theorem claim7 (src : ByteSource) (size : Nat) :
    (FuzzyReader src size = Except.error FuzzyError.smallInput ↔ size < minFileSize) ∧
    (size < minFileSize → ∀ src2 : ByteSource, FuzzyReader src size = FuzzyReader src2 size) := by
  constructor
  · constructor
    · intro h
      by_cases hs : size < minFileSize
      · exact hs
      · exfalso
        unfold FuzzyReader at h
        rw [if_neg hs] at h
        split at h
        · rename_i e2 heq
          rw [fuzzyLoop_error_shape _ _ _ _ heq] at h
          simp at h
        · simp at h
    · intro h
      unfold FuzzyReader
      rw [if_pos h]
  · intro h src2
    unfold FuzzyReader
    simp only [if_pos h]

/-- C8, counterexample: for the all-zeros input of declared size 4096 one of
the executed scanning passes runs with block size 1, which is not 3 times a
power of two (the block size 3 is halved to 1 and a last pass runs before
the minimum check fires). -/
theorem claim8_counterexample :
    1 ∈ fuzzyPassSizes { bytes := List.replicate 4096 0, readErr := none } 4096 ∧
    ∀ k : Nat, 3 * 2 ^ k ≠ 1 := by
  constructor
  · unfold fuzzyPassSizes
    rw [if_neg (by simp [minFileSize])]
    obtain ⟨k, hk, -, -⟩ := getBlockSize_spec 4096
    exact zeros_one_mem _ _ 4096 none (Or.inr ⟨k, hk⟩) rfl (Nat.le_refl _)
  · intro k
    have : 1 ≤ 2 ^ k := Nat.one_le_two_pow
    omega

/-- C8, amended: every scanning pass of a digest computation runs with a
strictly positive block size that is either 3 times a power of two or the
value 1 (reached as 3 / 2 on the final, failing pass before `ErrSmallBlock`
is reported). -/
theorem claim8 (src : ByteSource) (size : Nat) (b : Nat)
    (h1 : minFileSize ≤ size) (h2 : b ∈ fuzzyPassSizes src size) :
    0 < b ∧ (b = 1 ∨ ∃ k, b = 3 * 2 ^ k) := by
  unfold fuzzyPassSizes at h2
  rw [if_neg (by omega)] at h2
  obtain ⟨k, hk, -, -⟩ := getBlockSize_spec size
  exact fuzzyLoopSizes_form _ src _ (Or.inr ⟨k, hk⟩) b h2

/-- C8, witness: the single pass of the `witnessSource` computation runs
with block size 96 = 3 * 2 ^ 5. -/
theorem claim8_witness : 0 < 96 ∧ ((96 : Nat) = 1 ∨ ∃ k, (96 : Nat) = 3 * 2 ^ k) :=
  claim8 witnessSource 4096 96 (by decide) (by decide)

/-- C9: the digest computation is deterministic — it is a pure function of
the buffer, `FuzzyBytes` is `FuzzyReader` on the buffer-backed source with
the declared length, and two sources yielding the same bytes (whatever their
terminal read outcome) produce identical results. -/
theorem claim9 :
    (∀ buffer : List Nat, FuzzyBytes buffer = FuzzyBytes buffer ∧
      FuzzyBytes buffer = FuzzyReader { bytes := buffer, readErr := none } buffer.length) ∧
    ∀ (src src2 : ByteSource) (size : Nat), src.bytes = src2.bytes →
      FuzzyReader src size = FuzzyReader src2 size := by
  constructor
  · intro buffer
    exact ⟨rfl, rfl⟩
  · intro src src2 size h
    rw [FuzzyReader_readErr src, FuzzyReader_readErr src2, h]

/-- C10: the fine (second) hash string never grows longer than the coarse
(first) one — `processByte` preserves the inequality at every step of a
scanning pass, and every digest `FuzzyReader` returns satisfies it. -/
theorem claim10 :
    (∀ (st : ssdeepState) (b : Nat),
      st.hashString2.length ≤ st.hashString1.length →
      (processByte st b).hashString2.length ≤ (processByte st b).hashString1.length) ∧
    ∀ (src : ByteSource) (size : Nat) (d : String),
      FuzzyReader src size = Except.ok d →
      ∃ bs s1 s2, d = formatDigest bs s1 s2 ∧ s2.length ≤ s1.length := by
  constructor
  · exact processByte_fineLeCoarse
  · intro src size d h
    unfold FuzzyReader at h
    split at h
    · simp at h
    · split at h
      · simp at h
      · rename_i st heq
        obtain ⟨-, -, -, -, -, h5⟩ := fuzzyLoop_ok _ src _ st
          ⟨by simp [newSsdeepState], by simp [newSsdeepState], by simp [newSsdeepState],
            by simp [newSsdeepState], by simp [newSsdeepState]⟩ heq
        rw [Except.ok.injEq] at h
        exact ⟨st.blockSize, st.hashString1, st.hashString2, h.symm, h5⟩

end Ssdeep
